import Mathlib

/-!
Verification of the UDP frame fragmentation/reassembly engine.

This file gives a shallow embedding of the core of the repository:

* functions.py, `send_file` (lines 41-66): fragmentation of a byte blob into
  headered UDP datagrams, frame-id wraparound and the send-side error paths;
* functions_client.py, `UDPReceiverProtocol.datagram_received` (lines 26-77):
  stateful reassembly of inbound datagrams into complete frames;
* functions_client.py, `UDPReceiverProtocol.cleanup_loop` (lines 90-101): the
  periodic eviction sweep over the reassembly table.

Bytes are modelled as natural numbers (each < 256 on real inputs, though the
definitions never depend on that), byte strings as lists, timestamps as
integers, and the reassembly dictionary as a function from frame ids to
optional per-frame records.  I/O (the network transport, the event loop,
logging, and file reads/writes) is abstracted: a datagram handed to
`transport.sendto` becomes an element of the returned datagram list, a file
read that may fail becomes an `Option (List Nat)` input, and Python exceptions
raised by the modelled code become explicit error constructors.
-/

/-- Big-endian interpretation of a byte string, as in Python's
`int.from_bytes(data, "big", signed=False)`. -/
def fromBytesBE (bs : List Nat) : Nat :=
  bs.foldl (fun acc b => acc * 256 + b) 0

/-- Big-endian encoding of `v` on `k` bytes, as in Python's
`v.to_bytes(k, 'big', signed=False)`.  Python raises `OverflowError` when
`v ≥ 256 ^ k`; every call site below either guards that condition explicitly
(mirroring where the exception is raised in `send_file`) or is statically in
range, so the truncating behaviour of this model is never exercised. -/
def toBytesBE : Nat → Nat → List Nat
  | _, 0 => []
  | v, k + 1 => toBytesBE (v / 256) k ++ [v % 256]

/-- The receiver's per-frame reassembly record, one entry of
`self.reassembly_dict` in functions_client.py line 22:
`{ "total_chunks": int, "chunks": list, "received_count": int,
   "last_update": float }`. -/
structure FrameInfo where
  total_chunks : Nat
  chunks : List (Option (List Nat))
  received_count : Nat
  last_update : Int
deriving DecidableEq

attribute [ext] FrameInfo

/-- The reassembly dictionary `self.reassembly_dict`, keyed by frame id. -/
abbrev Table := Nat → Option FrameInfo

/-- Pointwise dictionary write: `d[k] = v` (or `del d[k]` for `v = none`). -/
def update (st : Table) (k : Nat) (v : Option FrameInfo) : Table :=
  fun k' => if k' = k then v else st k'

/-- The chunk count `math.ceil(L / C)` for natural `L`, `C`
(functions.py line 52). -/
def totalChunks (L C : Nat) : Nat := (L + C - 1) / C

/-- The payload slice of chunk `i`: functions.py lines 57-59,
`file_data[i*chunk_size : min((i+1)*chunk_size, frame_size)]`.
`List.take` clamps at the end of the list exactly like the `min`. -/
def chunkPayload (data : List Nat) (C i : Nat) : List Nat :=
  (data.drop (i * C)).take C

/-- One UDP datagram: the 8-byte header (FrameID(4) ∥ TotalChunks(2) ∥
ChunkIndex(2), big-endian) followed by the chunk payload
(functions.py line 61). -/
def dgram (fc n i : Nat) (p : List Nat) : List Nat :=
  toBytesBE fc 4 ++ toBytesBE n 2 ++ toBytesBE i 2 ++ p

/-- Result of one `send_file` call.  `readFail` models the `except` branch of
lines 41-46 (returns the unchanged frame counter, sends nothing); `overflow`
models an uncaught `OverflowError` from `int.to_bytes` on line 51 or 53;
`zeroDiv` models the uncaught `ZeroDivisionError` from `frame_size / chunk_size`
on line 52 when `chunk_size = 0`; `ok ds next` models the normal path that
hands each datagram in `ds` to `transport.sendto` in index order and returns
the wrapped-increment `next` of the frame counter (line 66). -/
inductive SendResult where
  | readFail (next : Nat)
  | overflow
  | zeroDiv
  | ok (datagrams : List (List Nat)) (next : Nat)
deriving DecidableEq

/-- Model of `send_file` (functions.py lines 41-66).  `file_data = none` models a file
read that raises; pacing (`asyncio.sleep`) and logging are dropped.  The error
checks appear in the order Python would raise them: the file read (line 42),
`frame_counter.to_bytes(4, 'big')` (line 51), the division by `chunk_size`
(line 52), and `total_chunks.to_bytes(2, 'big')` (line 53), all before the
send loop of lines 56-63. -/
def sendFile (frame_counter : Nat) (file_data : Option (List Nat))
    (chunk_size : Nat) : SendResult :=
  match file_data with
  | none => .readFail frame_counter
  | some data =>
    if 2 ^ 32 ≤ frame_counter then .overflow
    else if chunk_size = 0 then .zeroDiv
    else
      let total_chunks := totalChunks data.length chunk_size
      if 2 ^ 16 ≤ total_chunks then .overflow
      else
        .ok ((List.range total_chunks).map fun i =>
              dgram frame_counter total_chunks i (chunkPayload data chunk_size i))
          ((frame_counter + 1) % 2 ^ 32)

/-- Concatenation `b"".join(frame_info["chunks"])` (functions_client.py line 73).  At the
one call site the frame is complete, so every slot is `some _`; the `getD []`
default is never exercised there. -/
def joinChunks (l : List (Option (List Nat))) : List Nat :=
  (l.map fun o => o.getD []).flatten

/-- functions_client.py lines 56-77: the part of `datagram_received` that runs
once the entry `fi` for `frame_counter` is known to be present in the table
(Python's `frame_info = self.reassembly_dict[frame_counter]`).  Returns the
updated table and the completed frame, if any, handed to `save_frame`. -/
def ingestKnown (st : Table) (now : Int) (frame_counter total_chunks chunk_idx : Nat)
    (chunk_data : List Nat) (fi : FrameInfo) : Table × Option (Nat × List Nat) :=
  -- lines 58-63: total_chunks mismatch resets the entry to the new header
  let fi1 := if fi.total_chunks ≠ total_chunks then
      { fi with total_chunks := total_chunks,
                chunks := List.replicate total_chunks none,
                received_count := 0 }
    else fi
  -- lines 65-69: store the chunk if its slot is still empty
  let fi2 := if fi1.chunks[chunk_idx]? = some none then
      { fi1 with chunks := fi1.chunks.set chunk_idx (some chunk_data),
                 received_count := fi1.received_count + 1,
                 last_update := now }
    else fi1
  -- lines 71-77: completion check
  if fi2.received_count = fi2.total_chunks then
    (update st frame_counter none, some (frame_counter, joinChunks fi2.chunks))
  else
    (update st frame_counter (some fi2), none)

/-- Model of `UDPReceiverProtocol.datagram_received` (functions_client.py lines 26-77).
`now` is `self.loop.time()`; the sender address is ignored (only logged in
Python).  Returns the updated reassembly table and the completed frame, if
this datagram completed one. -/
def datagramReceived (st : Table) (now : Int) (data : List Nat) :
    Table × Option (Nat × List Nat) :=
  -- lines 28-30: malformed packet
  if data.length < 8 then (st, none)
  else
    -- lines 36-39: parse the header
    let frame_counter := fromBytesBE (data.take 4)
    let total_chunks := fromBytesBE ((data.drop 4).take 2)
    let chunk_idx := fromBytesBE ((data.drop 6).take 2)
    let chunk_data := data.drop 8
    -- lines 41-43: invalid header
    if total_chunks = 0 ∨ total_chunks ≤ chunk_idx then (st, none)
    else
      -- lines 48-54: create the entry if absent
      let st1 : Table := if st frame_counter = none then
          update st frame_counter
            (some ⟨total_chunks, List.replicate total_chunks none, 0, now⟩)
        else st
      -- line 56: the entry is present now; the none branch is unreachable
      match st1 frame_counter with
      | none => (st1, none)
      | some fi => ingestKnown st1 now frame_counter total_chunks chunk_idx chunk_data fi

/-- Deliver a list of datagrams to the receiver in order, collecting the
completed frames it emits. -/
def runIngest (st : Table) (now : Int) : List (List Nat) → Table × List (Nat × List Nat)
  | [] => (st, [])
  | d :: rest =>
    let r := datagramReceived st now d
    let r2 := runIngest r.1 now rest
    (r2.1, r.2.toList ++ r2.2)

/-- One tick of `cleanup_loop` (functions_client.py lines 92-100): a first
pass over the table collects the stale frame ids into `to_remove`, a second
pass deletes them.  `keys` is the list of keys the Python `for fc, info in
self.reassembly_dict.items()` loop iterates over, i.e. an enumeration of the
live entries. -/
def cleanupTick (st : Table) (keys : List Nat) (now frame_timeout : Int) : Table :=
  let to_remove := keys.filter fun fc =>
    match st fc with
    | some info => decide (frame_timeout < now - info.last_update)
    | none => false
  to_remove.foldl (fun s fc => update s fc none) st

/-- What `received_count` should equal: the number of non-empty slots. -/
def countFilled (l : List (Option (List Nat))) : Nat :=
  l.countP fun o => o.isSome

/-- The spec's PartialFrame invariant for every live entry of the table:
`receivedCount == count of non-empty slots` and `receivedCount <= TotalChunks`. -/
def tableWf (st : Table) : Prop :=
  ∀ fid fi, st fid = some fi →
    fi.received_count = countFilled fi.chunks ∧ fi.received_count ≤ fi.total_chunks

/-- Strengthened invariant actually maintained by the code: in addition the
slot list has length `total_chunks` and strictly `received_count <
total_chunks` (a completed entry is deleted on the spot, line 77). -/
def tableWfS (st : Table) : Prop :=
  ∀ fid fi, st fid = some fi →
    fi.received_count = countFilled fi.chunks ∧
    fi.received_count < fi.total_chunks ∧
    fi.chunks.length = fi.total_chunks

/-- Tables reachable from the empty reassembly dictionary by any interleaving
of datagram ingestion and eviction-sweep ticks. -/
inductive Reach : Table → Prop where
  | empty : Reach (fun _ => none)
  | ingest (st : Table) (now : Int) (d : List Nat) :
      Reach st → Reach (datagramReceived st now d).1
  | tick (st : Table) (keys : List Nat) (now tmo : Int) :
      Reach st → Reach (cleanupTick st keys now tmo)

/-- The reassembly entry for a frame of `data` fragmented with chunk size `C`,
when exactly the indices in `idxs` are still missing: every other slot holds
its chunk payload, and `received_count` counts the filled slots. -/
def mkEntry (data : List Nat) (C : Nat) (idxs : List Nat) (t : Int) : FrameInfo where
  total_chunks := totalChunks data.length C
  chunks := (List.range (totalChunks data.length C)).map fun i =>
    if i ∈ idxs then none else some (chunkPayload data C i)
  received_count := totalChunks data.length C - idxs.length
  last_update := t

/-- The datagram that `send_file` emits for chunk `j` of `data`. -/
def chunkDgram (data : List Nat) (C fc j : Nat) : List Nat :=
  dgram fc (totalChunks data.length C) j (chunkPayload data C j)

/-! ### Byte-encoding lemmas -/

theorem toBytesBE_length (k : Nat) : ∀ v, (toBytesBE v k).length = k := by
  induction k with
  | zero => intro v; rfl
  | succ k ih => intro v; simp [toBytesBE, ih]

theorem fromBytesBE_append_one (l : List Nat) (b : Nat) :
    fromBytesBE (l ++ [b]) = fromBytesBE l * 256 + b := by
  simp [fromBytesBE, List.foldl_append]

theorem fromBytesBE_toBytesBE (k : Nat) : ∀ v, v < 256 ^ k →
    fromBytesBE (toBytesBE v k) = v := by
  induction k with
  | zero => intro v hv; interval_cases v; rfl
  | succ k ih =>
    intro v hv
    have hdiv : v / 256 < 256 ^ k := by
      rw [Nat.div_lt_iff_lt_mul (by norm_num)]
      calc v < 256 ^ (k + 1) := hv
        _ = 256 ^ k * 256 := by ring
    rw [toBytesBE, fromBytesBE_append_one, ih _ hdiv]
    omega

theorem toBytesBE_inj {k a b : Nat} (ha : a < 256 ^ k) (hb : b < 256 ^ k)
    (h : toBytesBE a k = toBytesBE b k) : a = b := by
  have := congrArg fromBytesBE h
  rwa [fromBytesBE_toBytesBE k a ha, fromBytesBE_toBytesBE k b hb] at this

/-! ### Header parsing lemmas -/

theorem dgram_length (fc n i : Nat) (p : List Nat) :
    (dgram fc n i p).length = 8 + p.length := by
  simp [dgram, toBytesBE_length]
  omega

theorem dgram_take4 (fc n i : Nat) (p : List Nat) :
    (dgram fc n i p).take 4 = toBytesBE fc 4 := by
  rw [dgram, List.append_assoc, List.append_assoc,
    List.take_left' (toBytesBE_length 4 fc)]

theorem dgram_drop4 (fc n i : Nat) (p : List Nat) :
    (dgram fc n i p).drop 4 = toBytesBE n 2 ++ toBytesBE i 2 ++ p := by
  rw [dgram, List.append_assoc, List.append_assoc,
    List.drop_left' (toBytesBE_length 4 fc), List.append_assoc]

theorem dgram_drop6 (fc n i : Nat) (p : List Nat) :
    (dgram fc n i p).drop 6 = toBytesBE i 2 ++ p := by
  have h6 : (6 : Nat) = 4 + 2 := by norm_num
  rw [h6, ← List.drop_drop, dgram_drop4, List.append_assoc,
    List.drop_left' (toBytesBE_length 2 n)]

theorem dgram_drop8 (fc n i : Nat) (p : List Nat) :
    (dgram fc n i p).drop 8 = p := by
  have h8 : (8 : Nat) = 6 + 2 := by norm_num
  rw [h8, ← List.drop_drop, dgram_drop6, List.drop_left' (toBytesBE_length 2 i)]

theorem dgram_parse_fc (fc n i : Nat) (p : List Nat) (hfc : fc < 2 ^ 32) :
    fromBytesBE ((dgram fc n i p).take 4) = fc := by
  rw [dgram_take4, fromBytesBE_toBytesBE 4 fc (by norm_num at hfc ⊢; omega)]

theorem dgram_parse_total (fc n i : Nat) (p : List Nat) (hn : n < 2 ^ 16) :
    fromBytesBE (((dgram fc n i p).drop 4).take 2) = n := by
  rw [dgram_drop4, List.append_assoc, List.take_left' (toBytesBE_length 2 n),
    fromBytesBE_toBytesBE 2 n (by norm_num at hn ⊢; omega)]


theorem dgram_parse_idx (fc n i : Nat) (p : List Nat) (hi : i < 2 ^ 16) :
    fromBytesBE (((dgram fc n i p).drop 6).take 2) = i := by
  rw [dgram_drop6, List.take_left' (toBytesBE_length 2 i),
    fromBytesBE_toBytesBE 2 i (by norm_num at hi ⊢; omega)]

theorem dgram_idx_inj {fc n x j : Nat} {p q : List Nat} (hx : x < 2 ^ 16)
    (hj : j < 2 ^ 16) (h : dgram fc n x p = dgram fc n j q) : x = j := by
  have := congrArg (fun l => fromBytesBE ((l.drop 6).take 2)) h
  simpa [dgram_parse_idx _ _ _ _ hx, dgram_parse_idx _ _ _ _ hj] using this

/-! ### Table update lemmas -/

theorem update_same (st : Table) (k : Nat) (v : Option FrameInfo) :
    update st k v k = v := by
  simp [update]

theorem update_ne (st : Table) (k : Nat) (v : Option FrameInfo) {k' : Nat}
    (h : k' ≠ k) : update st k v k' = st k' := by
  simp [update, h]

theorem update_update (st : Table) (k : Nat) (v w : Option FrameInfo) :
    update (update st k v) k w = update st k w := by
  funext k'
  by_cases h : k' = k <;> simp [update, h]

theorem update_eq_self (st : Table) (k : Nat) {v : Option FrameInfo}
    (h : st k = v) : update st k v = st := by
  funext k'
  by_cases hk : k' = k <;> simp [update, hk, h.symm]

/-! ### Characterizations of `datagramReceived` on well-formed datagrams -/

theorem datagramReceived_present (st : Table) (now : Int) (fc n i : Nat)
    (p : List Nat) (fi : FrameInfo) (hst : st fc = some fi) (hfc : fc < 2 ^ 32)
    (hn : n < 2 ^ 16) (hi : i < n) :
    datagramReceived st now (dgram fc n i p) = ingestKnown st now fc n i p fi := by
  have hlen : ¬ (dgram fc n i p).length < 8 := by
    rw [dgram_length]; omega
  have hi16 : i < 2 ^ 16 := lt_of_lt_of_le hi (le_of_lt hn)
  rw [datagramReceived]
  rw [if_neg hlen]
  simp only [dgram_parse_fc fc n i p hfc, dgram_parse_total fc n i p hn,
    dgram_parse_idx fc n i p hi16, dgram_drop8]
  rw [if_neg (by omega)]
  simp [hst]

theorem datagramReceived_absent (st : Table) (now : Int) (fc n i : Nat)
    (p : List Nat) (hst : st fc = none) (hfc : fc < 2 ^ 32)
    (hn : n < 2 ^ 16) (hi : i < n) :
    datagramReceived st now (dgram fc n i p) =
      ingestKnown (update st fc (some ⟨n, List.replicate n none, 0, now⟩)) now
        fc n i p ⟨n, List.replicate n none, 0, now⟩ := by
  have hlen : ¬ (dgram fc n i p).length < 8 := by
    rw [dgram_length]; omega
  have hi16 : i < 2 ^ 16 := lt_of_lt_of_le hi (le_of_lt hn)
  rw [datagramReceived]
  rw [if_neg hlen]
  simp only [dgram_parse_fc fc n i p hfc, dgram_parse_total fc n i p hn,
    dgram_parse_idx fc n i p hi16, dgram_drop8]
  rw [if_neg (by omega)]
  have hcond : (st fc = none) = True := by simp [hst]
  simp only [hcond, if_true, update_same]


/-! ### `ingestKnown` branch lemmas -/

theorem ingestKnown_reset (st : Table) (now : Int) (fc tot i : Nat) (p : List Nat)
    (fi : FrameInfo) (hne : fi.total_chunks ≠ tot) :
    ingestKnown st now fc tot i p fi =
      ingestKnown st now fc tot i p ⟨tot, List.replicate tot none, 0, fi.last_update⟩ := by
  rw [ingestKnown, ingestKnown]
  simp [hne]

theorem ingestKnown_emptySlots (st : Table) (now : Int) (fc tot i : Nat) (p : List Nat)
    (lu : Int) (hi : i < tot) :
    ingestKnown st now fc tot i p ⟨tot, List.replicate tot none, 0, lu⟩ =
      if tot = 1 then (update st fc none, some (fc, p))
      else (update st fc
        (some ⟨tot, (List.replicate tot none).set i (some p), 1, now⟩), none) := by
  by_cases h1 : tot = 1
  · subst h1
    have hi0 : i = 0 := by omega
    subst hi0
    simp [ingestKnown, joinChunks]
  · rw [ingestKnown, if_neg h1]
    simp [List.getElem?_replicate, hi, Ne.symm h1]

/-! ### Reconstructing the payload from its chunk slices -/

theorem totalChunks_zero (C : Nat) (hC : 0 < C) : totalChunks 0 C = 0 := by
  unfold totalChunks
  exact Nat.div_eq_of_lt (by omega)

theorem totalChunks_pos (L C : Nat) (hC : 0 < C) (hL : 0 < L) :
    0 < totalChunks L C := by
  unfold totalChunks
  have h : 1 ≤ (L + C - 1) / C := (Nat.le_div_iff_mul_le hC).mpr (by omega)
  omega

theorem totalChunks_succ (L C : Nat) (hC : 0 < C) (hL : 0 < L) :
    totalChunks L C = totalChunks (L - C) C + 1 := by
  unfold totalChunks
  have e1 : L + C - 1 = (L - 1) + C := by omega
  rw [e1, Nat.add_div_right _ hC]
  rcases le_or_lt L C with hle | hgt
  · have e2 : L - C = 0 := by omega
    rw [e2]
    rw [Nat.div_eq_of_lt (by omega : 0 + C - 1 < C),
      Nat.div_eq_of_lt (by omega : L - 1 < C)]
  · have e3 : L - C + C - 1 = L - 1 := by omega
    rw [e3]

theorem chunkPayload_zero (data : List Nat) (C : Nat) :
    chunkPayload data C 0 = data.take C := by
  simp [chunkPayload]

theorem chunkPayload_succ (data : List Nat) (C j : Nat) :
    chunkPayload data C (j + 1) = chunkPayload (data.drop C) C j := by
  unfold chunkPayload
  rw [List.drop_drop]
  congr 2
  ring

/-- Concatenating the chunk payloads in index order reproduces the data:
the send-side slicing of functions.py lines 56-59 partitions the input. -/
theorem flatten_chunkPayloads (C : Nat) (hC : 0 < C) :
    ∀ (L : Nat) (data : List Nat), data.length = L →
      ((List.range (totalChunks data.length C)).map (chunkPayload data C)).flatten
        = data := by
  intro L
  induction L using Nat.strong_induction_on with
  | _ L ih =>
    intro data hlen
    by_cases h0 : data = []
    · subst h0
      simp only [List.length_nil, totalChunks_zero C hC, List.range_zero,
        List.map_nil, List.flatten_nil]
    · have hpos : 0 < data.length := List.length_pos.mpr h0
      rw [totalChunks_succ data.length C hC hpos, List.range_succ_eq_map]
      rw [List.map_cons, List.flatten_cons, chunkPayload_zero, List.map_map]
      have hmaps : (List.range (totalChunks (data.length - C) C)).map
            (chunkPayload data C ∘ Nat.succ)
          = (List.range (totalChunks ((data.drop C).length) C)).map
            (chunkPayload (data.drop C) C) := by
        rw [List.length_drop]
        apply List.map_congr_left
        intro j _
        exact chunkPayload_succ data C j
      rw [hmaps, ih ((data.drop C).length)
        (by rw [List.length_drop]; omega) (data.drop C) rfl]
      exact List.take_append_drop C data

/-! ### Intermediate reassembly states during one frame's delivery -/

theorem length_le_of_nodup_lt (idxs : List Nat) (n : Nat) (hnd : idxs.Nodup)
    (hb : ∀ x ∈ idxs, x < n) : idxs.length ≤ n := by
  have hsub : idxs.toFinset ⊆ Finset.range n := by
    intro x hx
    exact Finset.mem_range.mpr (hb x (List.mem_toFinset.mp hx))
  have hcard := Finset.card_le_card hsub
  rwa [List.toFinset_card_of_nodup hnd, Finset.card_range] at hcard

theorem mem_of_nodup_full (idxs : List Nat) (n : Nat) (hnd : idxs.Nodup)
    (hb : ∀ x ∈ idxs, x < n) (hfull : idxs.length = n) :
    ∀ i, i < n → i ∈ idxs := by
  have hsub : idxs.toFinset ⊆ Finset.range n := fun x hx =>
    Finset.mem_range.mpr (hb x (List.mem_toFinset.mp hx))
  have hcard : (Finset.range n).card ≤ idxs.toFinset.card := by
    rw [Finset.card_range, List.toFinset_card_of_nodup hnd, hfull]
  have heq := Finset.eq_of_subset_of_card_le hsub hcard
  intro i hi
  have hmem : i ∈ idxs.toFinset := by
    rw [heq]
    exact Finset.mem_range.mpr hi
  exact List.mem_toFinset.mp hmem

/-- When every index is missing, the entry is exactly the fresh entry created
by functions_client.py lines 48-54. -/
theorem mkEntry_full (data : List Nat) (C : Nat) (idxs : List Nat) (t : Int)
    (hnd : idxs.Nodup) (hb : ∀ x ∈ idxs, x < totalChunks data.length C)
    (hfull : idxs.length = totalChunks data.length C) :
    mkEntry data C idxs t =
      ⟨totalChunks data.length C,
       List.replicate (totalChunks data.length C) none, 0, t⟩ := by
  unfold mkEntry
  simp only [FrameInfo.mk.injEq]
  refine ⟨trivial, ?_, by omega, trivial⟩
  apply List.eq_replicate_iff.mpr
  constructor
  · simp
  · intro b hbmem
    obtain ⟨i, hi, hbi⟩ := List.mem_map.mp hbmem
    have : i ∈ idxs := mem_of_nodup_full idxs _ hnd hb hfull i (List.mem_range.mp hi)
    rw [← hbi, if_pos this]

theorem map_erase_on {α β : Type} [DecidableEq α] [DecidableEq β] (f : α → β) (j : α) :
    ∀ (l : List α), (∀ x ∈ l, f x = f j → x = j) →
      (l.map f).erase (f j) = (l.erase j).map f := by
  intro l
  induction l with
  | nil => intro _; rfl
  | cons a tl ih =>
    intro hinj
    by_cases ha : a = j
    · subst ha
      rw [List.map_cons, List.erase_cons_head, List.erase_cons_head]
    · have hfa : ¬ f a = f j := fun h => ha (hinj a (List.mem_cons_self a tl) h)
      have e1 : ((a :: tl).map f).erase (f j) = f a :: (tl.map f).erase (f j) := by
        rw [List.map_cons, List.erase_cons_tail]
        simp [hfa]
      have e2 : (a :: tl).erase j = a :: tl.erase j := by
        rw [List.erase_cons_tail]
        simp [ha]
      rw [e1, e2, List.map_cons, ih (fun x hx h => hinj x (List.mem_cons_of_mem a hx) h)]

theorem mkEntry_total (data : List Nat) (C : Nat) (idxs : List Nat) (t : Int) :
    (mkEntry data C idxs t).total_chunks = totalChunks data.length C := rfl

theorem mkEntry_chunks (data : List Nat) (C : Nat) (idxs : List Nat) (t : Int) :
    (mkEntry data C idxs t).chunks = (List.range (totalChunks data.length C)).map
      fun i => if i ∈ idxs then none else some (chunkPayload data C i) := rfl

theorem mkEntry_count (data : List Nat) (C : Nat) (idxs : List Nat) (t : Int) :
    (mkEntry data C idxs t).received_count
      = totalChunks data.length C - idxs.length := rfl

theorem joinChunks_mkEntry_nil (data : List Nat) (C : Nat) (now : Int) (hC : 0 < C) :
    joinChunks ((mkEntry data C [] now).chunks) = data := by
  rw [mkEntry_chunks]
  unfold joinChunks
  rw [List.map_map]
  have hmap : ((List.range (totalChunks data.length C)).map
        ((fun o => o.getD []) ∘ fun i =>
          if i ∈ ([] : List Nat) then none else some (chunkPayload data C i)))
      = (List.range (totalChunks data.length C)).map (chunkPayload data C) := by
    apply List.map_congr_left
    intro i _
    simp
  rw [hmap]
  exact flatten_chunkPayloads C hC data.length data rfl

/-- The heart of the round-trip argument: delivering the chunk for a missing
index `j` to the entry that is missing exactly `idxs` either completes the
frame (when `j` was the last missing index) or produces the entry missing
exactly `idxs.erase j`. -/
theorem ingestKnown_mkEntry (data : List Nat) (C fc : Nat) (st : Table) (now t : Int)
    (idxs : List Nat) (j : Nat) (hC : 0 < C) (hnd : idxs.Nodup)
    (hb : ∀ x ∈ idxs, x < totalChunks data.length C) (hj : j ∈ idxs) :
    ingestKnown st now fc (totalChunks data.length C) j (chunkPayload data C j)
        (mkEntry data C idxs t) =
      if idxs.length = 1 then (update st fc none, some (fc, data))
      else (update st fc (some (mkEntry data C (idxs.erase j) now)), none) := by
  have hjn : j < totalChunks data.length C := hb j hj
  have hL1 : 0 < idxs.length := List.length_pos.mpr (by
    rintro rfl
    exact (List.not_mem_nil j) hj)
  have hLle : idxs.length ≤ totalChunks data.length C :=
    length_le_of_nodup_lt idxs _ hnd hb
  have hjerase : ¬ j ∈ idxs.erase j := fun hmem => ((hnd.mem_erase_iff).mp hmem).1 rfl
  have hslot : (mkEntry data C idxs t).chunks[j]? = some none := by
    rw [mkEntry_chunks, List.getElem?_map, List.getElem?_range hjn]
    simp [hj]
  have hset : ((mkEntry data C idxs t).chunks).set j (some (chunkPayload data C j))
      = (mkEntry data C (idxs.erase j) now).chunks := by
    rw [mkEntry_chunks, mkEntry_chunks]
    apply List.ext_getElem?
    intro m
    rw [List.getElem?_set]
    by_cases hm : j = m
    · subst hm
      rw [if_pos rfl, List.getElem?_map, List.getElem?_range hjn]
      simp [hjn, hjerase]
    · rw [if_neg hm, List.getElem?_map, List.getElem?_map]
      by_cases hmn : m < totalChunks data.length C
      · rw [List.getElem?_range hmn]
        have hiff : (m ∈ idxs.erase j) = (m ∈ idxs) := by
          rw [eq_iff_iff, hnd.mem_erase_iff]
          exact ⟨fun h => h.2, fun h => ⟨fun e => hm e.symm, h⟩⟩
        simp [hiff]
      · have hnone : (List.range (totalChunks data.length C))[m]? = none := by
          rw [List.getElem?_eq_none]
          simpa using hmn
        rw [hnone]
        rfl
  have hreset : ¬ ((mkEntry data C idxs t).total_chunks ≠ totalChunks data.length C) := by
    simp [mkEntry_total]
  simp only [ingestKnown]
  rw [if_neg hreset, if_pos hslot]
  by_cases hL : idxs.length = 1
  · rw [if_pos hL]
    obtain ⟨a, ha⟩ := List.length_eq_one.mp hL
    have hja : j = a := by
      rw [ha] at hj
      simpa using hj
    have ha' : idxs = [j] := by
      rw [ha, hja]
    have herase_nil : idxs.erase j = [] := by
      rw [ha']
      exact List.erase_cons_head j []
    have hcomp : ({ mkEntry data C idxs t with
          chunks := ((mkEntry data C idxs t).chunks).set j (some (chunkPayload data C j)),
          received_count := (mkEntry data C idxs t).received_count + 1,
          last_update := now } : FrameInfo).received_count
        = ({ mkEntry data C idxs t with
          chunks := ((mkEntry data C idxs t).chunks).set j (some (chunkPayload data C j)),
          received_count := (mkEntry data C idxs t).received_count + 1,
          last_update := now } : FrameInfo).total_chunks := by
      simp only [mkEntry_count, mkEntry_total]
      omega
    rw [if_pos hcomp]
    simp only [hset, herase_nil]
    rw [joinChunks_mkEntry_nil data C now hC]
  · rw [if_neg hL]
    have hncomp : ¬ (({ mkEntry data C idxs t with
          chunks := ((mkEntry data C idxs t).chunks).set j (some (chunkPayload data C j)),
          received_count := (mkEntry data C idxs t).received_count + 1,
          last_update := now } : FrameInfo).received_count
        = ({ mkEntry data C idxs t with
          chunks := ((mkEntry data C idxs t).chunks).set j (some (chunkPayload data C j)),
          received_count := (mkEntry data C idxs t).received_count + 1,
          last_update := now } : FrameInfo).total_chunks) := by
      simp only [mkEntry_count, mkEntry_total]
      omega
    rw [if_neg hncomp]
    have hrec : ({ mkEntry data C idxs t with
          chunks := ((mkEntry data C idxs t).chunks).set j (some (chunkPayload data C j)),
          received_count := (mkEntry data C idxs t).received_count + 1,
          last_update := now } : FrameInfo) = mkEntry data C (idxs.erase j) now := by
      refine FrameInfo.ext ?_ ?_ ?_ ?_
      · rw [mkEntry_total]
        rfl
      · exact hset
      · simp only [mkEntry_count, List.length_erase_of_mem hj]
        omega
      · rfl
    rw [hrec]

theorem chunkDgram_def (data : List Nat) (C fc j : Nat) :
    chunkDgram data C fc j
      = dgram fc (totalChunks data.length C) j (chunkPayload data C j) := rfl

/-- Delivering, in any order, the chunks for exactly the missing indices of a
frame's entry makes the reassembler emit that frame once, with the original
bytes. -/
theorem runIngest_perm_emits (data : List Nat) (C fc : Nat) (hC : 0 < C)
    (hfc : fc < 2 ^ 32) (hn16 : totalChunks data.length C < 2 ^ 16) :
    ∀ (perm : List (List Nat)) (idxs : List Nat) (st : Table) (now : Int),
      List.Perm perm (idxs.map (chunkDgram data C fc)) →
      idxs.Nodup → (∀ x ∈ idxs, x < totalChunks data.length C) → idxs ≠ [] →
      ((∃ t, st fc = some (mkEntry data C idxs t)) ∨
        (idxs.length = totalChunks data.length C ∧ st fc = none)) →
      (runIngest st now perm).2 = [(fc, data)] := by
  intro perm
  induction perm with
  | nil =>
    intro idxs st now hperm hnd hb hne hst
    rcases idxs with _ | ⟨a, tl⟩
    · exact absurd rfl hne
    · exact absurd hperm.symm.eq_nil (by simp)
  | cons d rest ih =>
    intro idxs st now hperm hnd hb hne hst
    have hd : d ∈ idxs.map (chunkDgram data C fc) :=
      hperm.mem_iff.mp (List.mem_cons_self d rest)
    obtain ⟨j, hjmem, hdj⟩ := List.mem_map.mp hd
    have hjn : j < totalChunks data.length C := hb j hjmem
    have hinj : ∀ x ∈ idxs,
        chunkDgram data C fc x = chunkDgram data C fc j → x = j := by
      intro x hx h
      exact dgram_idx_inj (lt_of_lt_of_le (hb x hx) (le_of_lt hn16))
        (lt_of_lt_of_le hjn (le_of_lt hn16)) h
    have hrest : List.Perm rest ((idxs.erase j).map (chunkDgram data C fc)) := by
      have h1 := hperm.trans (List.perm_cons_erase hd)
      rw [← hdj] at h1
      have h2 := h1.cons_inv
      rwa [map_erase_on (chunkDgram data C fc) j idxs hinj] at h2
    obtain ⟨st1, t', heq⟩ : ∃ (st1 : Table) (t' : Int),
        datagramReceived st now (chunkDgram data C fc j)
          = ingestKnown st1 now fc (totalChunks data.length C) j
              (chunkPayload data C j) (mkEntry data C idxs t') := by
      rcases hst with ⟨t, hsome⟩ | ⟨hfull, hnone⟩
      · exact ⟨st, t, by
          rw [chunkDgram_def]
          exact datagramReceived_present st now fc _ j _ _ hsome hfc hn16 hjn⟩
      · refine ⟨update st fc (some (mkEntry data C idxs now)), now, ?_⟩
        rw [chunkDgram_def,
          datagramReceived_absent st now fc _ j _ hnone hfc hn16 hjn,
          mkEntry_full data C idxs now hnd hb hfull]
    rw [← hdj]
    simp only [runIngest]
    rw [heq, ingestKnown_mkEntry data C fc st1 now t' idxs j hC hnd hb hjmem]
    by_cases hL : idxs.length = 1
    · rw [if_pos hL]
      have herase_nil : idxs.erase j = [] := by
        obtain ⟨a, ha⟩ := List.length_eq_one.mp hL
        have hja : j = a := by
          rw [ha] at hjmem
          simpa using hjmem
        rw [ha, ← hja]
        exact List.erase_cons_head j []
      have hrestnil : rest = [] := by
        rw [herase_nil] at hrest
        simpa using hrest.eq_nil
      rw [hrestnil]
      simp [runIngest]
    · rw [if_neg hL]
      have hres := ih (idxs.erase j)
        (update st1 fc (some (mkEntry data C (idxs.erase j) now))) now hrest
        (hnd.erase j) (fun x hx => hb x (List.mem_of_mem_erase hx))
        (by
          intro hnil
          have hlen := List.length_erase_of_mem hjmem
          have hpos := List.length_pos_of_mem hjmem
          rw [hnil] at hlen
          simp at hlen
          omega)
        (Or.inl ⟨now, update_same _ _ _⟩)
      simpa using hres

/-! ### Claim C1: round trip -/

/-- C1 (amended): for every nonempty byte sequence and every frame id and
chunk size on which fragmentation succeeds (`send_file` returns its datagram
list rather than raising), delivering the full set of produced chunks to the
reassembler — in any order, each exactly once, starting with no entry for that
frame id — emits exactly one completed frame, whose bytes are the original
sequence. -/
theorem roundTrip_delivery (data : List Nat) (C fc : Nat) (ds : List (List Nat))
    (next : Nat) (st : Table) (now : Int) (perm : List (List Nat))
    (hok : sendFile fc (some data) C = SendResult.ok ds next)
    (hne : data ≠ [])
    (hst : st fc = none)
    (hperm : List.Perm perm ds) :
    (runIngest st now perm).2 = [(fc, data)] := by
  simp only [sendFile] at hok
  by_cases h32 : 2 ^ 32 ≤ fc
  · rw [if_pos h32] at hok
    exact absurd hok (by simp)
  rw [if_neg h32] at hok
  by_cases hC0 : C = 0
  · rw [if_pos hC0] at hok
    exact absurd hok (by simp)
  rw [if_neg hC0] at hok
  by_cases h16 : 2 ^ 16 ≤ totalChunks data.length C
  · rw [if_pos h16] at hok
    exact absurd hok (by simp)
  rw [if_neg h16] at hok
  injection hok with h1 h2
  have hds : ds = (List.range (totalChunks data.length C)).map (chunkDgram data C fc) := by
    rw [← h1]
    rfl
  have hCpos : 0 < C := Nat.pos_of_ne_zero hC0
  have hnpos : 0 < totalChunks data.length C :=
    totalChunks_pos data.length C hCpos (List.length_pos.mpr hne)
  apply runIngest_perm_emits data C fc hCpos (by omega) (by omega) perm
    (List.range (totalChunks data.length C)) st now
  · rwa [hds] at hperm
  · exact List.nodup_range _
  · intro x hx
    exact List.mem_range.mp hx
  · intro hcon
    rw [List.range_eq_nil] at hcon
    omega
  · right
    exact ⟨List.length_range _, hst⟩

/-- C1 witness: the 3-byte sequence `[1,2,3]` with chunk size 2, delivered
out of order, is reassembled exactly once into the original bytes. -/
theorem roundTrip_delivery_witness :
    (runIngest (fun _ => none) 5
        [[0,0,0,0,0,2,0,1,3], [0,0,0,0,0,2,0,0,1,2]]).2 = [(0, [1,2,3])] :=
  roundTrip_delivery [1,2,3] 2 0 [[0,0,0,0,0,2,0,0,1,2], [0,0,0,0,0,2,0,1,3]] 1
    (fun _ => none) 5 [[0,0,0,0,0,2,0,1,3], [0,0,0,0,0,2,0,0,1,2]]
    (by decide) (by decide) rfl (by decide)

/-- C1 counterexample: for the empty byte sequence (length 0) the claim as
stated fails on the code: `send_file` computes `TotalChunks = 0` and produces
no chunks at all, so delivering the full (empty) set of chunks emits nothing,
not exactly one frame with the original (empty) bytes. -/
theorem roundTrip_empty_counterexample :
    sendFile 0 (some ([] : List Nat)) 8000 = SendResult.ok [] 1 ∧
    (runIngest (fun _ => none) 0 []).2 ≠ [(0, ([] : List Nat))] := by
  constructor
  · decide
  · decide

/-! ### Claim C2: duplicate chunks -/

/-- C2 (amended): replaying a chunk whose slot is already filled and whose
header `TotalChunks` agrees with the stored entry leaves the reassembly table
exactly unchanged — `received_count` untouched, `last_update` not refreshed —
and emits no frame.  (`hcount` holds for every entry the code ever keeps in
the table, since a completed entry is deleted on the spot.) -/
theorem duplicateChunk_noop (st : Table) (now : Int) (fc tot i : Nat)
    (p q : List Nat) (fi : FrameInfo)
    (hst : st fc = some fi) (htot : fi.total_chunks = tot)
    (hfilled : fi.chunks[i]? = some (some q))
    (hcount : fi.received_count < fi.total_chunks)
    (hfc : fc < 2 ^ 32) (h16 : tot < 2 ^ 16) (hi : i < tot) :
    datagramReceived st now (dgram fc tot i p) = (st, none) := by
  rw [datagramReceived_present st now fc tot i p fi hst hfc h16 hi]
  simp only [ingestKnown]
  have hres : ¬ (fi.total_chunks ≠ tot) := by
    rw [htot]
    simp
  rw [if_neg hres]
  have hns : ¬ (fi.chunks[i]? = some none) := by
    rw [hfilled]
    simp
  rw [if_neg hns, if_neg (Nat.ne_of_lt hcount), update_eq_self st fc hst]

/-- C2 witness: replaying the chunk that filled slot 0 of a 2-chunk frame
changes nothing and emits nothing. -/
theorem duplicateChunk_noop_witness :
    datagramReceived (update (fun _ => none) 0 (some ⟨2, [some [9], none], 1, 0⟩)) 5
        (dgram 0 2 0 [9])
      = (update (fun _ => none) 0 (some ⟨2, [some [9], none], 1, 0⟩), none) :=
  duplicateChunk_noop _ 5 0 2 0 [9] [9] ⟨2, [some [9], none], 1, 0⟩
    (update_same _ _ _) rfl (by decide) (by decide) (by decide) (by decide) (by decide)

/-- C2 counterexample: the claim as stated is false for a chunk whose slot is
filled but whose header `TotalChunks` disagrees with the stored one.  Stored
entry for frame 0: `TotalChunks = 3`, slots 0 and 1 filled, `received_count =
2`, `last_update = 0`.  Ingesting a chunk for frame 0, index 0 — whose slot is
already filled — with header `TotalChunks = 2` resets the entry:
`received_count` drops from 2 to 1 and `last_update` is refreshed to 5. -/
theorem duplicateChunk_counterexample :
    ((update (fun _ => none) 0 (some ⟨3, [some [7], some [8], none], 2, 0⟩) : Table) 0
        = some ⟨3, [some [7], some [8], none], 2, 0⟩) ∧
    (⟨3, [some [7], some [8], none], 2, 0⟩ : FrameInfo).chunks[0]? = some (some [7]) ∧
    ((datagramReceived
        (update (fun _ => none) 0 (some ⟨3, [some [7], some [8], none], 2, 0⟩)) 5
        (dgram 0 2 0 [7])).1) 0 = some ⟨2, [some [7], none], 1, 5⟩ ∧
    (2 : Nat) ≠ 1 := by
  refine ⟨by decide, by decide, by decide, by decide⟩

/-! ### Claim C3: rejection invariants -/

/-- C3: a datagram shorter than 8 bytes, or whose header has
`TotalChunks = 0`, or `ChunkIndex ≥ TotalChunks`, is rejected: the table of
partial frames is returned exactly unchanged and no frame is emitted. -/
theorem reject_leaves_state (st : Table) (now : Int) (d : List Nat)
    (h : d.length < 8 ∨ fromBytesBE ((d.drop 4).take 2) = 0
        ∨ fromBytesBE ((d.drop 4).take 2) ≤ fromBytesBE ((d.drop 6).take 2)) :
    datagramReceived st now d = (st, none) := by
  simp only [datagramReceived]
  by_cases hlen : d.length < 8
  · rw [if_pos hlen]
  · rcases h with h | h
    · exact absurd h hlen
    · rw [if_neg hlen, if_pos h]

/-- C3 witness: a 3-byte datagram is rejected with a non-empty table left
exactly as it was. -/
theorem reject_leaves_state_witness :
    datagramReceived (update (fun _ => none) 7 (some ⟨1, [none], 0, 0⟩)) 3 [1, 2, 3]
      = (update (fun _ => none) 7 (some ⟨1, [none], 0, 0⟩), none) :=
  reject_leaves_state _ 3 [1, 2, 3] (Or.inl (by decide))

/-! ### Claim C4: header conflict -/

/-- C4: on an existing entry whose stored `TotalChunks` differs from the
incoming valid header, ingestion resets every slot to empty, resets
`received_count` to 0, adopts the incoming `TotalChunks`, and only then
stores the incoming payload: the resulting entry (when the new header needs
more than one chunk) holds exactly the incoming payload in its slot, with
`received_count = 1`; with `TotalChunks = 1` the freshly stored chunk
completes the frame at once. -/
theorem headerConflict_resets (st : Table) (now : Int) (fc tot i : Nat)
    (p : List Nat) (fi : FrameInfo)
    (hst : st fc = some fi) (hconf : fi.total_chunks ≠ tot)
    (hfc : fc < 2 ^ 32) (h16 : tot < 2 ^ 16) (hi : i < tot) :
    datagramReceived st now (dgram fc tot i p) =
      if tot = 1 then (update st fc none, some (fc, p))
      else (update st fc
        (some ⟨tot, (List.replicate tot none).set i (some p), 1, now⟩), none) := by
  rw [datagramReceived_present st now fc tot i p fi hst hfc h16 hi,
    ingestKnown_reset st now fc tot i p fi hconf,
    ingestKnown_emptySlots st now fc tot i p fi.last_update hi]

/-- C4 witness: an entry with `TotalChunks = 3` and one filled slot, hit by a
chunk declaring `TotalChunks = 2` at index 1, is reset to the new header with
only the incoming payload stored. -/
theorem headerConflict_resets_witness :
    datagramReceived (update (fun _ => none) 0 (some ⟨3, [some [7], none, none], 1, 0⟩)) 9
        (dgram 0 2 1 [5])
      = (update (update (fun _ => none) 0 (some ⟨3, [some [7], none, none], 1, 0⟩)) 0
          (some ⟨2, [none, some [5]], 1, 9⟩), none) := by
  have h := headerConflict_resets
    (update (fun _ => none) 0 (some ⟨3, [some [7], none, none], 1, 0⟩)) 9 0 2 1 [5]
    ⟨3, [some [7], none, none], 1, 0⟩
    (update_same _ _ _) (by decide) (by decide) (by decide) (by decide)
  rw [if_neg (by decide)] at h
  exact h

/-! ### Claim C5: eviction sweep -/

theorem foldl_update_none (l : List Nat) : ∀ (st : Table) (k : Nat),
    (l.foldl (fun s fc => update s fc none) st) k = if k ∈ l then none else st k := by
  induction l with
  | nil =>
    intro st k
    simp
  | cons a tl ih =>
    intro st k
    rw [List.foldl_cons, ih]
    by_cases hk : k ∈ tl
    · simp [hk]
    · by_cases hka : k = a
      · subst hka
        simp [hk, update_same]
      · simp [hk, hka, update_ne st a none hka]

/-- Pointwise description of one sweep tick: an entry is deleted exactly when
the first pass collected its key as stale. -/
theorem cleanupTick_apply (st : Table) (keys : List Nat) (now tmo : Int) (k : Nat) :
    cleanupTick st keys now tmo k =
      if k ∈ keys.filter (fun fc =>
          match st fc with
          | some info => decide (tmo < now - info.last_update)
          | none => false) then none else st k := by
  simp only [cleanupTick]
  exact foldl_update_none _ st k

/-- C5: a partial frame whose `last_update` is more than `frame_timeout` older
than the sweep's `now` is removed by the tick (the stale set is collected in a
first pass over `keys` — the iteration order of the live table — and removed
in a second pass), and a chunk for that frame id arriving afterwards starts a
brand-new entry: all slots empty except the one just stored, `received_count`
restarted at 1 (completing immediately when the new header says one chunk). -/
theorem eviction_fresh_restart (st : Table) (keys : List Nat) (now tmo now2 : Int)
    (fid : Nat) (fi : FrameInfo) (tot i : Nat) (p : List Nat)
    (hst : st fid = some fi) (hkey : fid ∈ keys)
    (hstale : tmo < now - fi.last_update)
    (hfc : fid < 2 ^ 32) (h16 : tot < 2 ^ 16) (hi : i < tot) :
    cleanupTick st keys now tmo fid = none ∧
    datagramReceived (cleanupTick st keys now tmo) now2 (dgram fid tot i p) =
      (if tot = 1 then (update (cleanupTick st keys now tmo) fid none, some (fid, p))
      else (update (cleanupTick st keys now tmo) fid
        (some ⟨tot, (List.replicate tot none).set i (some p), 1, now2⟩), none)) := by
  have hrem : cleanupTick st keys now tmo fid = none := by
    rw [cleanupTick_apply]
    rw [if_pos (List.mem_filter.mpr ⟨hkey, by simp [hst, hstale]⟩)]
  refine ⟨hrem, ?_⟩
  rw [datagramReceived_absent _ now2 fid tot i p hrem hfc h16 hi,
    ingestKnown_emptySlots _ now2 fid tot i p now2 hi]
  by_cases h1 : tot = 1
  · rw [if_pos h1, if_pos h1, update_update]
  · rw [if_neg h1, if_neg h1, update_update]

/-- C5 witness: a frame idle since time 0 is evicted by a sweep at time 10
with timeout 5, and a later chunk for the same id starts a fresh 2-chunk
entry holding only the new payload. -/
theorem eviction_fresh_restart_witness :
    cleanupTick (update (fun _ => none) 0 (some ⟨3, [some [1], none, none], 1, 0⟩))
        [0] 10 5 0 = none ∧
    datagramReceived
        (cleanupTick (update (fun _ => none) 0 (some ⟨3, [some [1], none, none], 1, 0⟩))
          [0] 10 5) 11 (dgram 0 2 0 [9])
      = (update
          (cleanupTick (update (fun _ => none) 0 (some ⟨3, [some [1], none, none], 1, 0⟩))
            [0] 10 5) 0
          (some ⟨2, [some [9], none], 1, 11⟩), none) := by
  have h := eviction_fresh_restart
    (update (fun _ => none) 0 (some ⟨3, [some [1], none, none], 1, 0⟩)) [0] 10 5 11
    0 ⟨3, [some [1], none, none], 1, 0⟩ 2 0 [9]
    (update_same _ _ _) (by decide) (by decide) (by decide) (by decide) (by decide)
  rw [if_neg (by decide)] at h
  exact h

/-! ### Claim C9: the PartialFrame invariant -/

theorem countFilled_replicate (n : Nat) : countFilled (List.replicate n none) = 0 := by
  rw [countFilled, List.countP_eq_zero]
  intro a ha
  rw [List.eq_of_mem_replicate ha]
  simp

theorem countFilled_set_of_none (l : List (Option (List Nat))) (i : Nat) (v : List Nat)
    (h : l[i]? = some none) : countFilled (l.set i (some v)) = countFilled l + 1 := by
  obtain ⟨hi, hl⟩ := List.getElem?_eq_some.mp h
  rw [countFilled, countFilled, List.countP_set _ _ _ _ hi, hl]
  simp

theorem tableWfS_update (st : Table) (k : Nat) (v : Option FrameInfo)
    (hwf : tableWfS st)
    (hv : ∀ fi, v = some fi → fi.received_count = countFilled fi.chunks ∧
        fi.received_count < fi.total_chunks ∧ fi.chunks.length = fi.total_chunks) :
    tableWfS (update st k v) := by
  intro fid fi hfid
  by_cases h : fid = k
  · rw [h, update_same] at hfid
    exact hv fi hfid
  · rw [update_ne st k v h] at hfid
    exact hwf fid fi hfid

theorem ingestKnown_wfS (st : Table) (now : Int) (fc tot idx : Nat) (cd : List Nat)
    (fi : FrameInfo) (hwf : tableWfS st)
    (h0 : 0 < tot) (hidx : idx < tot)
    (hfi : fi.received_count = countFilled fi.chunks ∧
      fi.received_count < fi.total_chunks ∧ fi.chunks.length = fi.total_chunks) :
    tableWfS (ingestKnown st now fc tot idx cd fi).1 := by
  obtain ⟨hfi1, hfi2, hfi3⟩ := hfi
  simp only [ingestKnown]
  split
  · -- header conflict: the entry was reset to the incoming header
    split
    · -- the chunk was then stored into the empty slot
      rename_i hconf hstore
      split
      · -- completion: entry removed
        apply tableWfS_update st fc none hwf
        intro fi' h
        exact absurd h (by simp)
      · -- entry kept: one filled slot out of tot
        rename_i hcomp
        apply tableWfS_update st fc _ hwf
        intro fi' h
        injection h with h
        subst h
        dsimp only at hstore hcomp ⊢
        refine ⟨?_, ?_, ?_⟩
        · rw [countFilled_set_of_none _ _ _ hstore, countFilled_replicate]
        · omega
        · rw [List.length_set, List.length_replicate]
    · -- impossible: slot `idx` of the freshly reset slots is empty
      rename_i hconf hstore
      exfalso
      apply hstore
      dsimp only
      simp [List.getElem?_replicate, hidx]
  · -- headers agree: the entry is used as stored
    rename_i hconf
    split
    · -- the chunk was stored into an empty slot
      rename_i hstore
      split
      · -- completion: entry removed
        apply tableWfS_update st fc none hwf
        intro fi' h
        exact absurd h (by simp)
      · rename_i hcomp
        apply tableWfS_update st fc _ hwf
        intro fi' h
        injection h with h
        subst h
        dsimp only at hstore hcomp ⊢
        refine ⟨?_, ?_, ?_⟩
        · rw [countFilled_set_of_none _ _ _ hstore, hfi1]
        · omega
        · rw [List.length_set, hfi3]
    · -- duplicate: the entry is unchanged
      rename_i hstore
      split
      · apply tableWfS_update st fc none hwf
        intro fi' h
        exact absurd h (by simp)
      · apply tableWfS_update st fc _ hwf
        intro fi' h
        injection h with h
        subst h
        exact ⟨hfi1, hfi2, hfi3⟩

theorem datagramReceived_wfS (st : Table) (now : Int) (d : List Nat)
    (hwf : tableWfS st) : tableWfS (datagramReceived st now d).1 := by
  simp only [datagramReceived]
  split
  · exact hwf
  · split
    · exact hwf
    · rename_i hlen hrej
      rw [not_or] at hrej
      obtain ⟨h0', hle⟩ := hrej
      have h0 : 0 < fromBytesBE ((d.drop 4).take 2) := Nat.pos_of_ne_zero h0'
      have hidx : fromBytesBE ((d.drop 6).take 2) < fromBytesBE ((d.drop 4).take 2) :=
        Nat.lt_of_not_le hle
      by_cases hpres : st (fromBytesBE (d.take 4)) = none
      · -- no entry yet: one is created first
        rw [if_pos hpres, update_same]
        have hwf1 : tableWfS (update st (fromBytesBE (d.take 4))
            (some ⟨fromBytesBE ((d.drop 4).take 2),
              List.replicate (fromBytesBE ((d.drop 4).take 2)) none, 0, now⟩)) := by
          apply tableWfS_update st _ _ hwf
          intro fi' h
          injection h with h
          subst h
          refine ⟨?_, h0, ?_⟩
          · rw [countFilled_replicate]
          · rw [List.length_replicate]
        exact ingestKnown_wfS _ now _ _ _ _ _ hwf1 h0 hidx
          ⟨by rw [countFilled_replicate], h0, by rw [List.length_replicate]⟩
      · -- entry already present
        rw [if_neg hpres]
        split
        · exact hwf
        · rename_i fi hfieq
          exact ingestKnown_wfS _ now _ _ _ _ _ hwf h0 hidx (hwf _ fi hfieq)

theorem cleanupTick_wfS (st : Table) (keys : List Nat) (now tmo : Int)
    (hwf : tableWfS st) : tableWfS (cleanupTick st keys now tmo) := by
  intro fid fi hfid
  rw [cleanupTick_apply] at hfid
  split at hfid
  · exact absurd hfid (by simp)
  · exact hwf fid fi hfid

theorem reach_wfS (st : Table) (h : Reach st) : tableWfS st := by
  induction h with
  | empty =>
    intro fid fi hfid
    exact absurd hfid (by simp)
  | ingest st' now d hre ih => exact datagramReceived_wfS st' now d ih
  | tick st' keys now tmo hre ih => exact cleanupTick_wfS st' keys now tmo ih

/-- C9: in every table reachable from the empty one by any sequence of
`datagram_received` calls (creation, header-conflict reset, duplicate, fill
and completion paths included) and sweep ticks, every live entry satisfies
the PartialFrame invariant: `received_count` equals the number of non-empty
slots, and `received_count ≤ total_chunks`. -/
theorem reach_tableWf (st : Table) (h : Reach st) : tableWf st := by
  intro fid fi hfid
  obtain ⟨h1, h2, h3⟩ := reach_wfS st h fid fi hfid
  exact ⟨h1, le_of_lt h2⟩

/-- C9 witness: after one ingested chunk from the empty table, the single
live entry satisfies the invariant. -/
theorem reach_tableWf_witness :
    (⟨2, [some [5], none], 1, 0⟩ : FrameInfo).received_count
        = countFilled (⟨2, [some [5], none], 1, 0⟩ : FrameInfo).chunks ∧
    (⟨2, [some [5], none], 1, 0⟩ : FrameInfo).received_count
        ≤ (⟨2, [some [5], none], 1, 0⟩ : FrameInfo).total_chunks :=
  reach_tableWf ((datagramReceived (fun _ => none) 0 (dgram 0 2 0 [5])).1)
    (Reach.ingest (fun _ => none) 0 (dgram 0 2 0 [5]) Reach.empty)
    0 ⟨2, [some [5], none], 1, 0⟩ (by decide)

/-! ### Claim C6: worked example -/

/-- C6: fragmenting any 20000-byte input with `chunkSize = 8000` produces
`TotalChunks = 3`, the three datagrams in index order with payload sizes
8000, 8000, 4000, and for `FrameID = 7` the 8-byte header of the chunk with
index 1 is exactly `00 00 00 07 00 03 00 01`. -/
theorem workedExample_20000 (data : List Nat) (h : data.length = 20000) :
    sendFile 7 (some data) 8000 =
      SendResult.ok
        [dgram 7 3 0 (data.take 8000),
         dgram 7 3 1 ((data.drop 8000).take 8000),
         dgram 7 3 2 ((data.drop 16000).take 8000)] 8 ∧
    totalChunks 20000 8000 = 3 ∧
    (data.take 8000).length = 8000 ∧
    ((data.drop 8000).take 8000).length = 8000 ∧
    ((data.drop 16000).take 8000).length = 4000 ∧
    (dgram 7 3 1 ((data.drop 8000).take 8000)).take 8 = [0, 0, 0, 7, 0, 3, 0, 1] := by
  have htot : totalChunks data.length 8000 = 3 := by
    rw [h]
    decide
  refine ⟨?_, by decide, ?_, ?_, ?_, ?_⟩
  · simp only [sendFile]
    rw [if_neg (by decide), if_neg (by decide), htot, if_neg (by decide)]
    have hr : List.range 3 = [0, 1, 2] := rfl
    rw [hr]
    simp only [List.map_cons, List.map_nil, chunkPayload]
    norm_num
  · simp only [List.length_take, h]
    omega
  · simp only [List.length_take, List.length_drop, h]
    omega
  · simp only [List.length_take, List.length_drop, h]
    omega
  · rw [dgram, List.take_left' (by decide)]
    decide

/-- C6 witness: the worked example evaluated on a concrete 20000-byte input. -/
theorem workedExample_20000_witness :
    sendFile 7 (some (List.replicate 20000 (0 : Nat))) 8000 =
      SendResult.ok
        [dgram 7 3 0 ((List.replicate 20000 (0 : Nat)).take 8000),
         dgram 7 3 1 (((List.replicate 20000 (0 : Nat)).drop 8000).take 8000),
         dgram 7 3 2 (((List.replicate 20000 (0 : Nat)).drop 16000).take 8000)] 8 ∧
    totalChunks 20000 8000 = 3 ∧
    ((List.replicate 20000 (0 : Nat)).take 8000).length = 8000 ∧
    (((List.replicate 20000 (0 : Nat)).drop 8000).take 8000).length = 8000 ∧
    (((List.replicate 20000 (0 : Nat)).drop 16000).take 8000).length = 4000 ∧
    (dgram 7 3 1 (((List.replicate 20000 (0 : Nat)).drop 8000).take 8000)).take 8
      = [0, 0, 0, 7, 0, 3, 0, 1] :=
  workedExample_20000 (List.replicate 20000 0) (by rw [List.length_replicate])

/-! ### Claim C7: more than 65535 chunks -/

/-- C7: evaluating `send_file` at an input needing 65536 chunks (65536 bytes
with `chunk_size = 1`): the `OverflowError` from
`total_chunks.to_bytes(2, 'big')` on functions.py line 53 is raised before
the send loop, so no chunk is emitted and no frame counter is returned — but
nothing in the repository catches it, so it propagates out of `send_file`
through `monitor_folder_and_send` instead of being handled locally. -/
theorem overflow_rejects_before_send :
    sendFile 0 (some (List.replicate 65536 (0 : Nat))) 1 = SendResult.overflow := by
  simp only [sendFile]
  rw [if_neg (by decide), if_neg (by decide)]
  have h1 : (List.replicate 65536 (0 : Nat)).length = 65536 := by
    rw [List.length_replicate]
  rw [h1, if_pos (by decide)]

/-! ### Claim C8: read failure keeps the frame id -/

/-- C8: when the data source cannot be read, `send_file` reports the read
failure, emits no chunk and returns the same frame id it was given; the
wrapped increment `(fc + 1) % 2^32` is returned only on the success path,
after all chunks have been handed to the transport. -/
theorem readFailure_keeps_frameId (fc cs : Nat) (data : List Nat)
    (hC : cs ≠ 0) (hfc : fc < 2 ^ 32)
    (htot : totalChunks data.length cs < 2 ^ 16) :
    sendFile fc none cs = SendResult.readFail fc ∧
    sendFile fc (some data) cs =
      SendResult.ok ((List.range (totalChunks data.length cs)).map fun i =>
          dgram fc (totalChunks data.length cs) i (chunkPayload data cs i))
        ((fc + 1) % 2 ^ 32) := by
  constructor
  · rfl
  · simp only [sendFile]
    rw [if_neg (by omega), if_neg hC, if_neg (by omega)]

/-- C8 witness. -/
theorem readFailure_keeps_frameId_witness :
    sendFile 5 none 8000 = SendResult.readFail 5 ∧
    sendFile 5 (some [1]) 8000 =
      SendResult.ok ((List.range (totalChunks ([1] : List Nat).length 8000)).map fun i =>
          dgram 5 (totalChunks ([1] : List Nat).length 8000) i (chunkPayload [1] 8000 i))
        ((5 + 1) % 2 ^ 32) :=
  readFailure_keeps_frameId 5 8000 [1] (by decide) (by decide) (by decide)

/-! ### Claim C10: the empty frame -/

/-- C10: for a readable data source of length 0, `send_file` computes
`TotalChunks = 0`, emits zero datagrams, and still returns the wrapped
increment of the frame id — consuming an id for a frame no chunk of which is
ever put on the wire. -/
theorem emptyFile_consumes_id (fc C : Nat) (hC : 0 < C) (hfc : fc < 2 ^ 32) :
    totalChunks 0 C = 0 ∧
    sendFile fc (some []) C = SendResult.ok [] ((fc + 1) % 2 ^ 32) := by
  have h0 : totalChunks 0 C = 0 := totalChunks_zero C hC
  refine ⟨h0, ?_⟩
  simp only [sendFile, List.length_nil, h0]
  rw [if_neg (by omega), if_neg (by omega), if_neg (by omega)]
  simp

/-- C10 witness. -/
theorem emptyFile_consumes_id_witness :
    totalChunks 0 8000 = 0 ∧
    sendFile 0 (some []) 8000 = SendResult.ok [] ((0 + 1) % 2 ^ 32) :=
  emptyFile_consumes_id 0 8000 (by decide) (by decide)
